import Mathlib

/-!
Verification of the PCA bootstrap confidence-interval core
(`stats.py` and `confidence.py`) against its specification.

Carrier and conventions of the shallow embedding:
* Matrices are `List (List ℚ)`, row-major, exactly as numpy 2-d arrays.
* Machine floats are idealised as `ℚ`.  The transcendental operations the
  code delegates to numpy/scipy — `sqrt` (inside Pearson correlation and
  standard deviation), `power(·, 3/2)`, and the standard-normal `cdf`,
  `icdf` and `ppf` — have no exact rational realisation, so they are passed
  to every embedded function as explicit oracle parameters.  Theorems place
  on the oracles only properties the true functions enjoy, and concrete
  evaluations instantiate them with functions that agree with the true
  values at every point actually evaluated (certified by side conditions
  such as `14 ^ 2 = 196` next to `sqrt 196 = 14`).
* IEEE `NaN` (which the code produces via `0/0` and via `corrcoef` on
  constant vectors) is represented by `none` in `Option ℚ`.
* A Python exception escaping a function is `Except.error`.
-/

namespace IndicatorCalc

/-- Entry `(i, j)` of a row-major rational matrix, defaulting to `0`. -/
def cellD (m : List (List ℚ)) (i j : ℕ) : ℚ :=
  (m.getD i []).getD j 0

/-- Column `j` of a row-major matrix, as read by numpy `m[:, j]`. -/
def colD (m : List (List ℚ)) (j : ℕ) : List ℚ :=
  m.map (fun r => r.getD j 0)

/-- numpy `argmax` on a list of reals: index of the first maximum
(numpy returns the first occurrence on ties). -/
def argmaxList (l : List ℚ) : ℕ :=
  match l with
  | [] => 0
  | x :: xs =>
      (xs.foldl
        (fun p y => if y > p.2.1 then (p.2.2, y, p.2.2 + 1) else (p.1, p.2.1, p.2.2 + 1))
        ((0 : ℕ), x, (1 : ℕ))).1

/-- Whether a list of numpy floats contains a `NaN`. -/
def hasNone : List (Option ℚ) → Bool
  | [] => false
  | none :: _ => true
  | some _ :: xs => hasNone xs

/-- Index of the first `NaN` in a list of numpy floats (0 when none). -/
def firstNoneIdx : List (Option ℚ) → ℕ
  | [] => 0
  | none :: _ => 0
  | some _ :: xs => firstNoneIdx xs + 1

/-- numpy `argmax` on a list that may contain `NaN` (= `none`): numpy's
loop latches onto the first `NaN` it meets, so the result is the index of
the first `NaN` when one exists, and the ordinary first-maximum otherwise. -/
def argmaxOpt (l : List (Option ℚ)) : ℕ :=
  if hasNone l then firstNoneIdx l
  else argmaxList (l.map (fun o => o.getD 0))

/-- Ascending sort, the behaviour of `numpy.sort` on a 1-d slice (the
sorted rearrangement of a list of rationals is unique, so any correct
sort embeds it; insertion sort keeps every definition structural). -/
def sortAsc (l : List ℚ) : List ℚ :=
  l.insertionSort (· ≤ ·)

/-- `stats.jacknife`: `[delete(data, i, 0) for i in range(len(data))]`. -/
def jacknife (data : List (List ℚ)) : List (List (List ℚ)) :=
  (List.range data.length).map (fun i => data.eraseIdx i)

theorem jacknife_length (data : List (List ℚ)) :
    (jacknife data).length = data.length := by
  simp [jacknife]

theorem jacknife_get (data : List (List ℚ)) (i : ℕ) (hi : i < data.length) :
    (jacknife data).getD i [] = data.take i ++ data.drop (i + 1) := by
  have h1 : (jacknife data).getD i [] = data.eraseIdx i := by
    have hlen : i < (jacknife data).length := by simpa [jacknife] using hi
    rw [List.getD_eq_getElem _ _ hlen]
    simp [jacknife]
  rw [h1, List.eraseIdx_eq_take_drop_succ]

theorem jacknife_sample_length (data : List (List ℚ)) (i : ℕ)
    (hi : i < data.length) :
    ((jacknife data).getD i []).length = data.length - 1 := by
  have h1 : (jacknife data).getD i [] = data.eraseIdx i := by
    have hlen : i < (jacknife data).length := by simpa [jacknife] using hi
    rw [List.getD_eq_getElem _ _ hlen]
    simp [jacknife]
  rw [h1, List.length_eraseIdx]
  simp [hi]

theorem jacknife_pairwise_ne (data : List (List ℚ))
    (h : ∀ k, k + 1 < data.length → data.getD k [] ≠ data.getD (k + 1) []) :
    List.Pairwise (· ≠ ·) (jacknife data) := by
  rw [List.pairwise_iff_getElem]
  intro i j hi hj hij
  simp only [jacknife, List.getElem_map, List.getElem_range] at *
  intro heq
  have hiN : i < data.length := by simpa [jacknife] using hi
  have hjN : j < data.length := by simpa [jacknife] using hj
  have hi1 : i + 1 < data.length := by omega
  have hilt : i < data.length - 1 := by omega
  have h1 : i < (data.eraseIdx i).length := by
    rw [List.length_eraseIdx]; simp [hiN, hilt]
  have h2 : i < (data.eraseIdx j).length := by
    rw [List.length_eraseIdx]; simp [hjN, hilt]
  have e1 : (data.eraseIdx i)[i] = data[i + 1] := by
    rw [List.getElem_eraseIdx]
    simp
  have e2 : (data.eraseIdx j)[i] = data[i] := by
    rw [List.getElem_eraseIdx]
    simp [hij]
  have e3 : (data.eraseIdx i)[i] = (data.eraseIdx j)[i] := by
    congr 1
  rw [e1, e2] at e3
  apply h i hi1
  rw [List.getD_eq_getElem _ _ hiN, List.getD_eq_getElem _ _ hi1]
  exact e3.symm

/-- C8 counterexample: on the 2-row matrix with two identical rows, the
two jackknife samples are equal, refuting "no returned sample equals any
other" for arbitrary observation matrices. -/
theorem jacknife_duplicate_rows_counterexample :
    jacknife [[(0 : ℚ)], [(0 : ℚ)]] = [[[0]], [[0]]] ∧
      (jacknife [[(0 : ℚ)], [(0 : ℚ)]]).getD 0 [] =
        (jacknife [[(0 : ℚ)], [(0 : ℚ)]]).getD 1 [] := by
  constructor <;> decide

/-- C8 (amended): for every N-row matrix, `jacknife` returns exactly N
samples, the i-th omitting exactly row i while preserving the relative
order of the remaining rows (so each sample has N-1 rows); the samples
are pairwise distinct provided no two adjacent rows of the input are
equal (with duplicated rows, two samples can coincide). -/
theorem jacknife_count_invariant (data : List (List ℚ))
    (h : ∀ k, k + 1 < data.length → data.getD k [] ≠ data.getD (k + 1) []) :
    (jacknife data).length = data.length ∧
      (∀ i, i < data.length →
        (jacknife data).getD i [] = data.take i ++ data.drop (i + 1) ∧
          ((jacknife data).getD i []).length = data.length - 1) ∧
      List.Pairwise (· ≠ ·) (jacknife data) := by
  refine ⟨jacknife_length data, ?_, jacknife_pairwise_ne data h⟩
  intro i hi
  exact ⟨jacknife_get data i hi, jacknife_sample_length data i hi⟩

/-- C8 witness: the amended invariant, instantiated on a concrete 2-row
matrix with distinct rows. -/
theorem jacknife_count_invariant_witness :
    (jacknife [[(0 : ℚ)], [(1 : ℚ)]]).length = 2 ∧
      List.Pairwise (· ≠ ·) (jacknife [[(0 : ℚ)], [(1 : ℚ)]]) := by
  have h := jacknife_count_invariant [[(0 : ℚ)], [(1 : ℚ)]]
    (by
      intro k hk
      have hk0 : k = 0 := by simp at hk; omega
      subst hk0; decide)
  exact ⟨h.1, h.2.2⟩

/-! ## `stats.apply_pca`, lines 74-93

`numpy.linalg.eig` is a floating-point oracle, so the embedding takes its
output — the eigenvalue list and the matrix whose *columns* are the
eigenvectors, exactly numpy's convention — as input and embeds everything
the source does with it: the deterministic sign canonicalisation, the
transposition into component-major layout, the stable descending sort by
absolute eigenvalue, the final transposition back, and the
explained-variance fractions over the *signed* eigenvalue sum. -/

/-- numpy `sign` (the code never feeds it a NaN here). -/
def npSign (x : ℚ) : ℚ :=
  if 0 < x then 1 else if x < 0 then -1 else 0

/-- numpy `.T` on a row-major rectangular matrix: row `j` of the result
is column `j` of the input; the column count is read off the first row. -/
def matTranspose (m : List (List ℚ)) : List (List ℚ) :=
  (List.range (m.headD []).length).map (fun j => m.map (fun r => r.getD j 0))

/-- Lines 75-77: per column `j`, find the row of the largest absolute
loading and force that loading positive by scaling the column with the
numpy `sign` of that entry. -/
def sign_adjusted_eigen_vectors (vecs : List (List ℚ)) : List (List ℚ) :=
  let maxAbsIdx :=
    (List.range (vecs.headD []).length).map (fun j => argmaxList ((colD vecs j).map (|·|)))
  let signs :=
    (List.range vecs.length).map (fun j => npSign (cellD vecs (maxAbsIdx.getD j 0) j))
  vecs.map (fun r => List.zipWith (· * ·) r signs)

/-- Line 81: the `(|eigenvalue|, component row)` pairs, after the sign
adjustment and the first transposition. -/
def eigen_pairs (vals : List ℚ) (vecs : List (List ℚ)) : List (ℚ × List ℚ) :=
  let T := matTranspose (sign_adjusted_eigen_vectors vecs)
  (List.range vals.length).map (fun i => (|vals.getD i 0|, T.getD i []))

/-- Line 84: Python's stable `sort(key=|eigenvalue|, reverse=True)`. -/
def eigen_pairs_sorted (vals : List ℚ) (vecs : List (List ℚ)) : List (ℚ × List ℚ) :=
  (eigen_pairs vals vecs).insertionSort (fun a b => b.1 ≤ a.1)

/-- Line 88: the sorted component-major eigenvector matrix (row `k` is
the `k`-th principal component's loading vector). -/
def sorted_components (vals : List ℚ) (vecs : List (List ℚ)) : List (List ℚ) :=
  (eigen_pairs_sorted vals vecs).map Prod.snd

/-- Line 87: eigenvalues sorted descending by absolute magnitude. -/
def sorted_eigen_values (vals : List ℚ) (vecs : List (List ℚ)) : List ℚ :=
  (eigen_pairs_sorted vals vecs).map Prod.fst

/-- Lines 74-93 of `apply_pca`: the triple the function returns, given the
eigendecomposition oracle's output.  Note the second component is
`eigen_vectors_sorted.T` — transposed *back*, so variables index the rows. -/
def apply_pca_post (vals : List ℚ) (vecs : List (List ℚ)) :
    List ℚ × List (List ℚ) × List ℚ :=
  (sorted_eigen_values vals vecs,
   matTranspose (sorted_components vals vecs),
   (sorted_eigen_values vals vecs).map (fun v => v / vals.sum))

/-- Mapping an indexed read over `range` recovers `List.map`. -/
theorem map_range_getD {α β : Type} (f : α → β) (d : α) :
    ∀ l : List α, (List.range l.length).map (fun i => f (l.getD i d)) = l.map f := by
  intro l
  induction l with
  | nil => simp
  | cons x xs ih =>
      simp only [List.length_cons, List.range_succ_eq_map, List.map_cons, List.map_map]
      refine congrArg (f x :: ·) ?_
      have hc : ((fun i => f ((x :: xs).getD i d)) ∘ Nat.succ) = fun i => f (xs.getD i d) := by
        funext i
        simp [List.getD_cons_succ]
      rw [hc, ih]

theorem getD_map_of_lt {α β : Type} (f : α → β) (l : List α) (k : ℕ) (a : α) (b : β)
    (hk : k < l.length) : (l.map f).getD k b = f (l.getD k a) := by
  rw [List.getD_eq_getElem _ _ (by simpa using hk), List.getD_eq_getElem _ _ hk,
    List.getElem_map]

theorem getD_range_map {β : Type} (g : ℕ → β) (n k : ℕ) (b : β) (hk : k < n) :
    ((List.range n).map g).getD k b = g k := by
  rw [getD_map_of_lt g _ k 0 b (by simpa using hk), List.getD_eq_getElem _ _ (by simpa using hk)]
  simp

theorem headD_map_of_ne_nil {α β : Type} (f : α → β) (l : List α) (h : l ≠ [])
    (d : β) (d0 : α) : (l.map f).headD d = f (l.headD d0) := by
  cases l with
  | nil => exact absurd rfl h
  | cons x xs => simp

theorem sorted_components_length (vals : List ℚ) (vecs : List (List ℚ)) :
    (sorted_components vals vecs).length = vals.length := by
  simp [sorted_components, eigen_pairs_sorted, List.length_insertionSort, eigen_pairs]

theorem sorted_components_row_length (vals : List ℚ) (vecs : List (List ℚ))
    (hrows : vecs.length = vals.length)
    (hrect : ∀ r ∈ vecs, r.length = vals.length) :
    ∀ r ∈ sorted_components vals vecs, r.length = vals.length := by
  intro r hr
  obtain ⟨p, hp, rfl⟩ := List.mem_map.1 hr
  have hp' : p ∈ eigen_pairs vals vecs :=
    (List.Perm.mem_iff (List.perm_insertionSort _ _)).1 hp
  simp only [eigen_pairs, List.mem_map, List.mem_range] at hp'
  obtain ⟨i, hi, rfl⟩ := hp'
  have hne2 : vecs ≠ [] := by
    intro hcon
    rw [hcon] at hrows
    simp at hrows
    omega
  have hheadlen0 : (vecs.headD []).length = vals.length := by
    cases vecs with
    | nil => exact absurd rfl hne2
    | cons v0 vtl => exact hrect v0 (List.mem_cons_self v0 vtl)
  have hheadlen : ((sign_adjusted_eigen_vectors vecs).headD []).length = vals.length := by
    rw [sign_adjusted_eigen_vectors]
    rw [headD_map_of_ne_nil _ vecs hne2 [] []]
    rw [List.length_zipWith]
    have h9 : vecs.head?.getD [] = vecs.headD [] := by
      cases vecs <;> rfl
    simp only [h9, hheadlen0, hrows]
    simp
  have hTget : (matTranspose (sign_adjusted_eigen_vectors vecs)).getD i [] =
      (sign_adjusted_eigen_vectors vecs).map (fun r => r.getD i 0) := by
    rw [matTranspose]
    exact getD_range_map _ _ i [] (by rw [hheadlen]; exact hi)
  show ((matTranspose (sign_adjusted_eigen_vectors vecs)).getD i []).length = vals.length
  rw [hTget, List.length_map]
  rw [sign_adjusted_eigen_vectors]
  simpa using hrows

theorem matTranspose_cell (m : List (List ℚ)) (k v : ℕ)
    (hv : v < (m.headD []).length) (hk : k < m.length) :
    ((matTranspose m).getD v []).getD k 0 = (m.getD k []).getD v 0 := by
  rw [matTranspose, getD_range_map _ _ v [] hv,
    getD_map_of_lt (fun r => r.getD v 0) m k [] 0 hk]

/-- C4 (amended): the eigenvector matrix `apply_pca` returns is the
*transpose* of the component-major sorted matrix — for every
eigendecomposition output of the right (square) shape, entry `(v, k)` of
the returned matrix is loading `v` of the `k`-th sorted principal
component, i.e. *column* `k` (not row `k`) is the `k`-th component's
loading vector, ordered by descending absolute eigenvalue. -/
theorem apply_pca_eigenvector_layout (vals : List ℚ) (vecs : List (List ℚ))
    (hrows : vecs.length = vals.length)
    (hrect : ∀ r ∈ vecs, r.length = vals.length)
    (k v : ℕ) (hk : k < vals.length) (hv : v < vals.length) :
    (((apply_pca_post vals vecs).2.1).getD v []).getD k 0 =
      ((sorted_components vals vecs).getD k []).getD v 0 := by
  have hSlen : (sorted_components vals vecs).length = vals.length :=
    sorted_components_length vals vecs
  have hne : sorted_components vals vecs ≠ [] := by
    intro hcon
    rw [hcon] at hSlen
    simp at hSlen
    omega
  have hhead : ((sorted_components vals vecs).headD []).length = vals.length := by
    cases hS : sorted_components vals vecs with
    | nil => exact absurd hS hne
    | cons s0 stl =>
        have : s0 ∈ sorted_components vals vecs := by rw [hS]; exact List.mem_cons_self s0 stl
        simpa using sorted_components_row_length vals vecs hrows hrect s0 this
  exact matTranspose_cell (sorted_components vals vecs) k v (by rw [hhead]; exact hv)
    (by rw [hSlen]; exact hk)

/-- C4 witness: the layout law instantiated on a concrete square
eigendecomposition output. -/
theorem apply_pca_eigenvector_layout_witness :
    (((apply_pca_post [3/2, 1, 1/2]
        [[2/3, 2/3, 1/3], [2/3, -1/3, -2/3], [1/3, -2/3, 2/3]]).2.1).getD 0 []).getD 2 0 =
      ((sorted_components [3/2, 1, 1/2]
        [[2/3, 2/3, 1/3], [2/3, -1/3, -2/3], [1/3, -2/3, 2/3]]).getD 2 []).getD 0 0 :=
  apply_pca_eigenvector_layout [3/2, 1, 1/2]
    [[2/3, 2/3, 1/3], [2/3, -1/3, -2/3], [1/3, -2/3, 2/3]]
    (by decide) (by decide) 2 0 (by decide) (by decide)

/-- C4 counterexample: on a concrete square eigendecomposition output,
row 0 of the matrix `apply_pca` returns is `[2/3, 2/3, -1/3]`, which
differs from the 0-th principal component's loading vector
`[2/3, 2/3, 1/3]`: the returned matrix is the transpose of the
component-major layout the claim describes. -/
theorem apply_pca_row_layout_counterexample :
    (((apply_pca_post [3/2, 1, 1/2]
        [[2/3, 2/3, 1/3], [2/3, -1/3, -2/3], [1/3, -2/3, 2/3]]).2.1).getD 0 [])
        = [2/3, 2/3, -1/3] ∧
      (sorted_components [3/2, 1, 1/2]
        [[2/3, 2/3, 1/3], [2/3, -1/3, -2/3], [1/3, -2/3, 2/3]]).getD 0 []
        = [2/3, 2/3, 1/3] ∧
      (((apply_pca_post [3/2, 1, 1/2]
        [[2/3, 2/3, 1/3], [2/3, -1/3, -2/3], [1/3, -2/3, 2/3]]).2.1).getD 0 [])
        ≠ (sorted_components [3/2, 1, 1/2]
            [[2/3, 2/3, 1/3], [2/3, -1/3, -2/3], [1/3, -2/3, 2/3]]).getD 0 [] := by
  refine ⟨?_, ?_, ?_⟩ <;>
    norm_num [apply_pca_post, sorted_components, sorted_eigen_values, eigen_pairs_sorted,
      eigen_pairs, sign_adjusted_eigen_vectors, matTranspose, argmaxList, colD, cellD, npSign,
      List.insertionSort, List.orderedInsert, List.range_succ, abs_eq_max_neg, max_def]

/-- C9: for every eigendecomposition output whose eigenvalues are
non-negative with positive sum (the case for a genuine correlation
matrix), the explained-variance fractions returned by `apply_pca` —
absolute-value-sorted eigenvalues each divided by the signed eigenvalue
sum — sum to exactly 1. -/
theorem explained_variance_sums_to_one (vals : List ℚ) (vecs : List (List ℚ))
    (hpos : ∀ x ∈ vals, 0 ≤ x) (hsum : 0 < vals.sum) :
    ((apply_pca_post vals vecs).2.2).sum = 1 := by
  have hperm : (eigen_pairs_sorted vals vecs).Perm (eigen_pairs vals vecs) :=
    List.perm_insertionSort _ _
  have h1 : (sorted_eigen_values vals vecs).sum = ((eigen_pairs vals vecs).map Prod.fst).sum :=
    (hperm.map Prod.fst).sum_eq
  have h2 : (eigen_pairs vals vecs).map Prod.fst = vals.map (|·|) := by
    simp only [eigen_pairs, List.map_map]
    have hc : (Prod.fst ∘ fun i =>
        ((|vals.getD i 0|, (matTranspose (sign_adjusted_eigen_vectors vecs)).getD i []) :
          ℚ × List ℚ)) = fun i => |vals.getD i 0| := rfl
    rw [hc, map_range_getD (fun x => |x|) 0 vals]
  have h3 : vals.map (|·|) = vals := by
    have hmc : vals.map (|·|) = vals.map id := List.map_congr_left
      (fun a ha => abs_of_nonneg (hpos a ha))
    rw [hmc, List.map_id]
  have h4 : (sorted_eigen_values vals vecs).sum = vals.sum := by rw [h1, h2, h3]
  have h5 : ∀ (l : List ℚ) (c : ℚ), (l.map (fun v => v / c)).sum = l.sum / c := by
    intro l c
    induction l with
    | nil => simp
    | cons x xs ih => simp [ih, add_div]
  show ((sorted_eigen_values vals vecs).map (fun v => v / vals.sum)).sum = 1
  rw [h5, h4, div_self (ne_of_gt hsum)]

/-- C9 witness: the sum-to-one law on a concrete eigendecomposition
output with positive eigenvalues. -/
theorem explained_variance_sums_to_one_witness :
    ((apply_pca_post [3/2, 1/2] [[1, 0], [0, 1]]).2.2).sum = 1 :=
  explained_variance_sums_to_one [3/2, 1/2] [[1, 0], [0, 1]]
    (by norm_num) (by norm_num)

/-! ## Pearson correlation and the axis-correspondence step
(`stats.correlation_matrix_between_pcas` and `confidence.bootstrap_and_apply_pca`)

The bootstrap draw and the eigendecomposition inside
`bootstrap_and_apply_pca` are external randomness and floating point; the
deterministic core the claims are about — lines 108-129: correlation
matrix, `argmax` matching, `unique` validity check, column reordering,
and sign reflection — is embedded here as a function of the empirical and
candidate eigenvector matrices.  `none` stands for numpy's NaN. -/

/-- Deviations of a vector from its mean. -/
def centered (l : List ℚ) : List ℚ :=
  l.map (fun x => x - l.sum / l.length)

def dotList (x y : List ℚ) : ℚ :=
  (List.zipWith (· * ·) x y).sum

/-- `numpy.corrcoef(x, y)[0][1]` with an explicit square-root oracle `s`:
`Σ dx·dy / sqrt(Σ dx² · Σ dy²)`.  The result is NaN (`none`) when either
vector has zero variance — including length-1 vectors, where `corrcoef`
divides the covariance by `N - 1 = 0`. -/
def pearsonQ (s : ℚ → ℚ) (x y : List ℚ) : Option ℚ :=
  if dotList (centered x) (centered x) = 0 ∨ dotList (centered y) (centered y) = 0 then none
  else some (dotList (centered x) (centered y) /
    s (dotList (centered x) (centered x) * dotList (centered y) (centered y)))

/-- `stats.correlation_matrix_between_pcas`: entry `(i, j)` correlates
*column* `i` of the first eigenvector matrix with *column* `j` of the
second (components are stored as columns); the size is read off the
first matrix's column count. -/
def correlation_matrix_between_pcas (s : ℚ → ℚ) (a b : List (List ℚ)) :
    List (List (Option ℚ)) :=
  (List.range (a.headD []).length).map
    (fun i => (List.range (a.headD []).length).map
      (fun j => pearsonQ s (colD a i) (colD b j)))

/-- numpy `abs` with NaN propagation. -/
def absO (o : Option ℚ) : Option ℚ :=
  o.map (|·|)

/-- `r < 0` under numpy semantics: every comparison with NaN is false. -/
def ltZeroO : Option ℚ → Bool
  | none => false
  | some x => decide (x < 0)

/-- Column `j` of an Option-valued matrix. -/
def colO (m : List (List (Option ℚ))) (j : ℕ) : List (Option ℚ) :=
  m.map (fun r => r.getD j none)

/-- Line 113: `argmax(absolute_correlation, axis=0)` — for each column of
the correlation matrix, the row index of the maximal absolute value. -/
def max_correlation (R : List (List (Option ℚ))) : List ℕ :=
  (List.range (R.headD []).length).map (fun j => argmaxOpt ((colO R j).map absO))

/-- Line 114: `len(bootstraped_eigen_vectors[0]) == len(unique(max_correlation))`. -/
def can_reorder (C : List (List ℚ)) (R : List (List (Option ℚ))) : Bool :=
  (C.headD []).length == (max_correlation R).dedup.length

/-- Line 122: `ev[:, indexes]` — numpy fancy indexing of the columns:
new column `j` is old column `indexes[j]`. -/
def reorder_columns (C : List (List ℚ)) (idx : List ℕ) : List (List ℚ) :=
  C.map (fun r => idx.map (fun k => r.getD k 0))

/-- Line 123: the same fancy indexing on the correlation matrix. -/
def reorder_columns_corr (R : List (List (Option ℚ))) (idx : List ℕ) :
    List (List (Option ℚ)) :=
  R.map (fun r => idx.map (fun k => r.getD k none))

/-- Lines 125-127: for `index` in `range(axisLen)`, if the diagonal entry
`R[index][index]` is negative, multiply *row* `index` of the eigenvector
matrix by `-1` (`axisLen` is `len(final_bootstraped_eigen_vectors[0])`,
taken before the reorder). -/
def reflect_rows (axisLen : ℕ) (C : List (List ℚ)) (R : List (List (Option ℚ))) :
    List (List ℚ) :=
  (List.range C.length).map (fun i =>
    if i < axisLen then
      if ltZeroO ((R.getD i []).getD i none) then (C.getD i []).map Neg.neg
      else C.getD i []
    else C.getD i [])

/-- One deterministic pass of `bootstrap_and_apply_pca`'s alignment
(lines 108-129) on a candidate eigenvector matrix `C` against the
empirical matrix `emp`: `none` means the validity check failed and the
sample would be redrawn. -/
def bootstrap_alignment (s : ℚ → ℚ) (emp C : List (List ℚ)) :
    Option (List (List ℚ)) :=
  let R := correlation_matrix_between_pcas s emp C
  let idx := max_correlation R
  if can_reorder C R then
    some (reflect_rows (C.headD []).length (reorder_columns C idx)
      (reorder_columns_corr R idx))
  else none

/-- Square-root oracle for the perfect squares arising in the concrete
alignment instances below (certified pointwise in the theorems). -/
def sqrtPS : ℚ → ℚ :=
  fun q =>
    if q = 4 then 2 else if q = 196 then 14 else if q = 9604 then 98
    else if q = 1/4 then 1/2 else 0

/-- A concrete empirical eigenvector matrix: components are the columns
`(1,0,-1)`, `(0,1,-1)`, `(3,5,-8)`, all with zero column-mean so every
pairwise Pearson denominator is a perfect square. -/
def empELoadings : List (List ℚ) :=
  [[1, 0, 3], [0, 1, 5], [-1, -1, -8]]

/-- `empELoadings` with component (column) 0 negated. -/
def candFlip0 : List (List ℚ) :=
  [[-1, 0, 3], [0, 1, 5], [1, -1, -8]]

/-- `empELoadings` with its components cyclically permuted:
column `j` holds component `τ(j)` for the 3-cycle `τ = (1, 2, 0)`. -/
def candCycle : List (List ℚ) :=
  [[0, 3, 1], [1, 5, 0], [-1, -8, -1]]

set_option maxHeartbeats 4000000 in
/-- C2: with the empirical matrix `empELoadings` and the candidate equal
to it with component (column) 0 negated, the best-match mapping is the
identity and the matched-pair correlations are `(-1, 1, 1)`; yet the code
negates *row* 0 of the variables-by-components matrix: component 2 is
changed although its matched-pair correlation is `+1`, and component 0 is
not the negation of its aligned column.  The sign reflection flips the
0-th loading of every component, not component 0's loading vector.
(The square-root oracle is certified at every point it is evaluated.) -/
theorem sign_reflection_negates_rows_not_components :
    (sqrtPS 4 = 2 ∧ (2 : ℚ) * 2 = 4) ∧
    (sqrtPS 196 = 14 ∧ (14 : ℚ) * 14 = 196) ∧
    (sqrtPS 9604 = 98 ∧ (98 : ℚ) * 98 = 9604) ∧
    max_correlation (correlation_matrix_between_pcas sqrtPS empELoadings candFlip0)
      = [0, 1, 2] ∧
    reorder_columns candFlip0
      (max_correlation (correlation_matrix_between_pcas sqrtPS empELoadings candFlip0))
      = candFlip0 ∧
    ((correlation_matrix_between_pcas sqrtPS empELoadings candFlip0).getD 0 []).getD 0 none
      = some (-1) ∧
    ((correlation_matrix_between_pcas sqrtPS empELoadings candFlip0).getD 1 []).getD 1 none
      = some 1 ∧
    ((correlation_matrix_between_pcas sqrtPS empELoadings candFlip0).getD 2 []).getD 2 none
      = some 1 ∧
    bootstrap_alignment sqrtPS empELoadings candFlip0
      = some [[1, 0, -3], [0, 1, 5], [1, -1, -8]] ∧
    colD [[1, 0, -3], [0, 1, 5], [1, -1, -8]] 2 ≠ colD candFlip0 2 ∧
    colD [[1, 0, -3], [0, 1, 5], [1, -1, -8]] 0 ≠ (colD candFlip0 0).map Neg.neg := by
  norm_num [bootstrap_alignment, correlation_matrix_between_pcas, pearsonQ, centered,
    dotList, colD, colO, absO, ltZeroO, max_correlation, can_reorder, reorder_columns,
    reorder_columns_corr, reflect_rows, argmaxOpt, argmaxList, sqrtPS,
    empELoadings, candFlip0, hasNone, firstNoneIdx, List.range_succ, List.dedup,
    abs_eq_max_neg, max_def]

set_option maxHeartbeats 4000000 in
/-- C3: the round-trip law fails on the code.  (a) For the 1-component
matrix `[[1]]` and the sign-flipped candidate `[[-1]]` — a signed
permutation of the empirical components, vacuously pairwise-decorrelated
— the alignment *accepts* the candidate (single-point correlations are
NaN, `argmax` latches onto the NaN, and the validity check passes) but
returns `[[-1]]` unchanged, because `NaN < 0` is false, so the original
sign is not recovered.  (b) For a pure 3-cycle permutation of
`empELoadings`'s components, the accepted output applies the *forward*
best-match permutation where its inverse is required, yielding the
doubly-permuted matrix instead of the original. -/
theorem axis_correspondence_roundtrip_fails :
    bootstrap_alignment sqrtPS [[1]] [[-1]] = some [[-1]] ∧
    ([[-1]] ≠ ([[1]] : List (List ℚ))) ∧
    bootstrap_alignment sqrtPS empELoadings candCycle
      = some [[3, 1, 0], [5, 0, 1], [-8, -1, -1]] ∧
    ([[3, 1, 0], [5, 0, 1], [-8, -1, -1]] ≠ empELoadings) := by
  norm_num [bootstrap_alignment, correlation_matrix_between_pcas, pearsonQ, centered,
    dotList, colD, colO, absO, ltZeroO, max_correlation, can_reorder, reorder_columns,
    reorder_columns_corr, reflect_rows, argmaxOpt, argmaxList, sqrtPS,
    empELoadings, candCycle, hasNone, firstNoneIdx, List.range_succ, List.dedup,
    abs_eq_max_neg, max_def]

/-! ## `stats.apply_pca`, lines 61-72: standardisation and the
zero-variance case

The source has no zero-variance check and no `raise` statement at all
(nor does any error type named for degenerate columns exist anywhere in
the repository).  Dividing by a zero standard deviation in numpy emits a
runtime warning and produces `0/0 = NaN` for every cell of the constant
column (the numerator `x - mean` is exactly zero there); `corrcoef`
propagates the NaNs, and the first failure is `numpy.linalg.eig`
rejecting a non-finite matrix with `LinAlgError`. -/

/-- Mean of column `j`. -/
def colMean (data : List (List ℚ)) (j : ℕ) : ℚ :=
  (colD data j).sum / (colD data j).length

/-- `numpy.std(data, axis=0)[j] ** 2`: the population variance of
column `j`. -/
def colVariance (data : List (List ℚ)) (j : ℕ) : ℚ :=
  ((colD data j).map (fun x => (x - colMean data j) ^ 2)).sum / (colD data j).length

/-- IEEE division by the standard deviation `sqrt(variance)` (the true
square root vanishes exactly on zero variance, so the zero test is on
the variance).  With a zero divisor, a zero numerator gives `0/0 = NaN`;
the `some 0` in the other branch stands for `±inf` and is unreachable
here, because a zero column variance forces every deviation to zero. -/
def divByStd (s : ℚ → ℚ) (num variance : ℚ) : Option ℚ :=
  if variance = 0 then (if num = 0 then none else some 0)
  else some (num / s variance)

/-- Lines 67-69: column-wise z-score standardisation, with *no*
zero-variance guard — it always returns a matrix. -/
def standardize (s : ℚ → ℚ) (data : List (List ℚ)) : List (List (Option ℚ)) :=
  data.map (fun row =>
    (List.range row.length).map (fun j =>
      divByStd s (row.getD j 0 - colMean data j) (colVariance data j)))

/-- Sequence a numpy column: `some` of the values iff it has no NaN. -/
def seqColumn : List (Option ℚ) → Option (List ℚ)
  | [] => some []
  | none :: _ => none
  | some x :: xs => (seqColumn xs).map (fun l => x :: l)

/-- Line 71, `corrcoef(copied_data.T)`: entry `(i, j)` is the Pearson
correlation of standardised columns `i` and `j`; a NaN anywhere in
either column makes the entry NaN. -/
def corr_matrix_of_data (s : ℚ → ℚ) (M : List (List (Option ℚ))) :
    List (List (Option ℚ)) :=
  (List.range (M.headD []).length).map (fun i =>
    (List.range (M.headD []).length).map (fun j =>
      match seqColumn (colO M i), seqColumn (colO M j) with
      | some x, some y => pearsonQ s x y
      | _, _ => none))

/-- The message with which `numpy.linalg.eig` rejects non-finite input. -/
def eigErrMsg : String := "Array must not contain infs or NaNs"

/-- `stats.apply_pca` end to end: standardise (unguarded), correlate,
eigendecompose — `numpy.linalg.eig` raises `LinAlgError` on NaN input,
otherwise its numeric output is the oracle `eigO` — and post-process. -/
def apply_pca_model (s : ℚ → ℚ)
    (eigO : List (List ℚ) → List ℚ × List (List ℚ))
    (data : List (List ℚ)) : Except String (List ℚ × List (List ℚ) × List ℚ) :=
  let M := standardize s data
  let corr := corr_matrix_of_data s M
  if corr.any (fun row => row.any (fun o => o.isNone)) then Except.error eigErrMsg
  else
    Except.ok (apply_pca_post (eigO (corr.map (fun row => row.map (fun o => o.getD 0)))).1
      (eigO (corr.map (fun row => row.map (fun o => o.getD 0)))).2)

theorem sum_sq_zero_each_zero (l : List ℚ) (hs : (l.map (fun x => x ^ 2)).sum = 0) :
    ∀ x ∈ l, x = 0 := by
  induction l with
  | nil => simp
  | cons y ys ih =>
      simp only [List.map_cons, List.sum_cons] at hs
      have hy2 : (0 : ℚ) ≤ y ^ 2 := sq_nonneg y
      have hrest : (0 : ℚ) ≤ (ys.map (fun x => x ^ 2)).sum := by
        apply List.sum_nonneg
        intro a ha
        obtain ⟨b, _, rfl⟩ := List.mem_map.1 ha
        exact sq_nonneg b
      have hy : y ^ 2 = 0 := by linarith
      have hrest0 : (ys.map (fun x => x ^ 2)).sum = 0 := by linarith
      intro x hx
      rcases List.mem_cons.1 hx with hx0 | hx1
      · rw [hx0]
        exact pow_eq_zero_iff (n := 2) (by norm_num) |>.1 hy
      · exact ih hrest0 x hx1

theorem zero_variance_all_mean (data : List (List ℚ)) (j : ℕ)
    (hvar : colVariance data j = 0) :
    ∀ x ∈ colD data j, x = colMean data j := by
  intro x hx
  have hlen : (0 : ℚ) < (colD data j).length := by
    cases hcol : colD data j with
    | nil => rw [hcol] at hx; simp at hx
    | cons a l => simp [hcol]; positivity
  have hsum : ((colD data j).map (fun x => (x - colMean data j) ^ 2)).sum = 0 := by
    have := hvar
    rw [colVariance, div_eq_zero_iff] at this
    rcases this with h | h
    · exact h
    · exfalso; rw [h] at hlen; exact lt_irrefl 0 hlen
  have hall := sum_sq_zero_each_zero ((colD data j).map (fun x => x - colMean data j))
    (by rw [List.map_map]; exact hsum)
  have hmem : x - colMean data j ∈ (colD data j).map (fun x => x - colMean data j) :=
    List.mem_map.2 ⟨x, hx, rfl⟩
  have := hall _ hmem
  linarith [this]

theorem seqColumn_eq_none (l : List (Option ℚ)) (h : none ∈ l) :
    seqColumn l = none := by
  induction l with
  | nil => simp at h
  | cons o os ih =>
      cases o with
      | none => rfl
      | some x =>
          have : none ∈ os := by
            rcases List.mem_cons.1 h with h0 | h1
            · exact absurd h0.symm (Option.some_ne_none x)
            · exact h1
          show (seqColumn os).map _ = none
          rw [ih this]
          rfl

/-- C5 (amended): `apply_pca` has no zero-variance guard and no
`DegenerateColumnError` exists anywhere in the source; when a column has
zero variance, every one of its standardised cells is the NaN `0/0`
(silently returned by the standardisation as a numeric matrix), the NaNs
reach the correlation matrix, and the run fails only when the
eigendecomposition rejects non-finite input with numpy's `LinAlgError`. -/
theorem zero_variance_unguarded_nan_then_eig_error
    (s : ℚ → ℚ) (eigO : List (List ℚ) → List ℚ × List (List ℚ))
    (data : List (List ℚ)) (j : ℕ)
    (hne : data ≠ [])
    (hrect : ∀ r ∈ data, r.length = (data.headD []).length)
    (hj : j < (data.headD []).length)
    (hvar : colVariance data j = 0) :
    (∀ i, i < data.length → ((standardize s data).getD i []).getD j none = none) ∧
      apply_pca_model s eigO data = Except.error eigErrMsg := by
  have hpart1 : ∀ i, i < data.length →
      ((standardize s data).getD i []).getD j none = none := by
    intro i hi
    have hrow : (standardize s data).getD i [] =
        (List.range (data.getD i []).length).map (fun j2 =>
          divByStd s ((data.getD i []).getD j2 0 - colMean data j2) (colVariance data j2)) := by
      rw [standardize]
      exact getD_map_of_lt _ data i [] [] hi
    have hmemrow : data.getD i [] ∈ data := by
      rw [List.getD_eq_getElem _ _ hi]
      exact List.getElem_mem hi
    have hrowlen : (data.getD i []).length = (data.headD []).length := hrect _ hmemrow
    rw [hrow, getD_range_map _ _ j none (by rw [hrowlen]; exact hj)]
    have hcell : (data.getD i []).getD j 0 ∈ colD data j :=
      List.mem_map.2 ⟨data.getD i [], hmemrow, rfl⟩
    have hmean := zero_variance_all_mean data j hvar _ hcell
    rw [divByStd, if_pos hvar, if_pos (by rw [hmean]; ring)]
  refine ⟨hpart1, ?_⟩
  have hM_ne : standardize s data ≠ [] := by
    rw [standardize]
    intro hcon
    exact hne (List.map_eq_nil_iff.1 hcon)
  have hMhead : ((standardize s data).headD []).length = (data.headD []).length := by
    rw [standardize, headD_map_of_ne_nil _ data hne [] []]
    simp
  have hdatalen : 0 < data.length := List.length_pos_of_ne_nil hne
  have hnone_mem : none ∈ colO (standardize s data) j := by
    have h0 : ((standardize s data).getD 0 []).getD j none = none := hpart1 0 hdatalen
    have hMlen : 0 < (standardize s data).length := by
      rw [standardize, List.length_map]; exact hdatalen
    refine List.mem_map.2 ⟨(standardize s data).getD 0 [], ?_, h0⟩
    rw [List.getD_eq_getElem _ _ hMlen]
    exact List.getElem_mem hMlen
  have hseq : seqColumn (colO (standardize s data) j) = none :=
    seqColumn_eq_none _ hnone_mem
  have hany : (corr_matrix_of_data s (standardize s data)).any
      (fun row => row.any (fun o => o.isNone)) = true := by
    rw [List.any_eq_true]
    refine ⟨(List.range ((standardize s data).headD []).length).map (fun j2 =>
      match seqColumn (colO (standardize s data) j),
        seqColumn (colO (standardize s data) j2) with
      | some x, some y => pearsonQ s x y
      | _, _ => none), ?_, ?_⟩
    · rw [corr_matrix_of_data]
      exact List.mem_map.2 ⟨j, List.mem_range.2 (by rw [hMhead]; exact hj), rfl⟩
    · rw [List.any_eq_true]
      refine ⟨none, ?_, rfl⟩
      refine List.mem_map.2 ⟨j, List.mem_range.2 (by rw [hMhead]; exact hj), ?_⟩
      rw [hseq]
  rw [apply_pca_model]
  simp only [hany]
  rfl

/-- C5 counterexample: on `[[1, 0], [1, 1]]`, whose first column has zero
variance, the standardisation raises nothing and returns a matrix whose
degenerate column holds NaN (`0/0`) in every cell — the case *is*
propagated numerically — and `apply_pca` then fails with numpy's
`LinAlgError` from the eigendecomposition, not with any
`DegenerateColumnError` (no such error exists in the source). -/
theorem degenerate_column_no_dedicated_error :
    (sqrtPS (1/4) = 1/2 ∧ (1/2 : ℚ) * (1/2) = 1/4) ∧
      standardize sqrtPS [[1, 0], [1, 1]] = [[none, some (-1)], [none, some 1]] ∧
      apply_pca_model sqrtPS (fun _ => ([], [])) [[1, 0], [1, 1]]
        = Except.error eigErrMsg := by
  norm_num [standardize, divByStd, colMean, colVariance, colD, colO, seqColumn,
    corr_matrix_of_data, apply_pca_model, pearsonQ, centered, dotList, sqrtPS,
    List.range_succ]

/-- C5 witness: the amended behaviour instantiated on the concrete
degenerate matrix `[[1, 0], [1, 1]]`. -/
theorem zero_variance_unguarded_witness :
    (∀ i, i < ([[1, 0], [1, 1]] : List (List ℚ)).length →
      ((standardize sqrtPS [[1, 0], [1, 1]]).getD i []).getD 0 none = none) ∧
      apply_pca_model sqrtPS (fun _ => ([], [])) [[1, 0], [1, 1]]
        = Except.error eigErrMsg :=
  zero_variance_unguarded_nan_then_eig_error sqrtPS (fun _ => ([], []))
    [[1, 0], [1, 1]] 0 (by decide) (by decide) (by decide)
    (by norm_num [colVariance, colMean, colD])

/-! ## `confidence.produce_confidence_intervals` and
`confidence_intervals_from_indexes` (lines 158-263)

The scipy standard-normal functions (`Normal(mu=0, sigma=1).cdf/.icdf`
and `norm.ppf`) and `power(·, 3/2)` are transcendental, so they enter
the embedding as oracles; everything else — the strict below-count, the
jackknife skewness with Python's built-in `sum` (which sums a 3-d numpy
array over its first axis, giving per-cell values), the adjusted
quantiles, `floor(location * B)`, the per-cell ascending sort, and numpy
integer indexing (negative indices wrap from the end, out-of-bounds
raises `IndexError`) — is embedded from the source. -/

/-- The scipy standard-normal oracles used by the code. -/
structure NormalOracle where
  cdf : ℚ → ℚ
  icdf : ℚ → ℚ
  ppf : ℚ → ℚ

/-- The values of cell `(i, j)` across an ensemble (`ens[:, i, j]`). -/
def cellSeries (ens : List (List (List ℚ))) (i j : ℕ) : List ℚ :=
  ens.map (fun m => cellD m i j)

/-- Lines 215-221: the proportion of bootstrap values strictly below the
empirical value, per cell. -/
def proportion_below (boot : List (List (List ℚ))) (emp : List (List ℚ))
    (i j : ℕ) : ℚ :=
  ((cellSeries boot i j).filter (fun x => decide (x < cellD emp i j))).length / boot.length

/-- Line 222: the bias corrector `z0 = icdf(proportion)`. -/
def bias_corrector (O : NormalOracle) (boot : List (List (List ℚ)))
    (emp : List (List ℚ)) (i j : ℕ) : ℚ :=
  O.icdf (proportion_below boot emp i j)

/-- Line 224: the cellwise mean over the jackknife ensemble. -/
def jack_mean (jack : List (List (List ℚ))) (i j : ℕ) : ℚ :=
  (cellSeries jack i j).sum / jack.length

/-- Lines 225-226: the acceleration term, exactly as the code computes it
— `sum(power(jack - mean, 3)) / (6 * power(sum(power(jack - mean, 2)), 3/2))`
per cell, with `p32` standing for `power(·, 3/2)`. -/
def distribution_skewness (p32 : ℚ → ℚ) (jack : List (List (List ℚ)))
    (i j : ℕ) : ℚ :=
  ((cellSeries jack i j).map (fun t => (t - jack_mean jack i j) ^ 3)).sum /
    (6 * p32 (((cellSeries jack i j).map (fun t => (t - jack_mean jack i j) ^ 2)).sum))

/-- The spec's formula for the acceleration term, following its words:
`a = Σ(θ̄ − θᵢ)³ / (6 · [Σ(θ̄ − θᵢ)²]^(3/2))` — mean minus value in the
numerator.  Stated only to be compared with `distribution_skewness`. -/
def acceleration_spec_formula (p32 : ℚ → ℚ) (jack : List (List (List ℚ)))
    (i j : ℕ) : ℚ :=
  ((cellSeries jack i j).map (fun t => (jack_mean jack i j - t) ^ 3)).sum /
    (6 * p32 (((cellSeries jack i j).map (fun t => (jack_mean jack i j - t) ^ 2)).sum))

/-- Lines 230-251: the adjusted quantile
`cdf(z0 + (z0 + z) / (1 - a * (z0 + z)))` for a tail critical value `z`. -/
def adjusted_location (O : NormalOracle) (p32 : ℚ → ℚ)
    (boot jack : List (List (List ℚ))) (emp : List (List ℚ))
    (z : ℚ) (i j : ℕ) : ℚ :=
  O.cdf (bias_corrector O boot emp i j +
    (bias_corrector O boot emp i j + z) /
      (1 - distribution_skewness p32 jack i j * (bias_corrector O boot emp i j + z)))

/-- Lines 252-253: `floor(location * len(bootstraped_pcas)).astype(int)`. -/
def location_index (O : NormalOracle) (p32 : ℚ → ℚ)
    (boot jack : List (List (List ℚ))) (emp : List (List ℚ))
    (z : ℚ) (i j : ℕ) : ℤ :=
  ⌊adjusted_location O p32 boot jack emp z i j * boot.length⌋

/-- The matrices of rank indices, shaped like an ensemble member. -/
def index_matrix (O : NormalOracle) (p32 : ℚ → ℚ)
    (boot jack : List (List (List ℚ))) (emp : List (List ℚ)) (z : ℚ) :
    List (List ℤ) :=
  (List.range (boot.headD []).length).map (fun i =>
    (List.range ((boot.headD []).headD []).length).map (fun j =>
      location_index O p32 boot jack emp z i j))

/-- `power(·, 3/2)` oracle for the perfect 3/2-powers arising in the
concrete BCa instances below (certified pointwise in the theorems). -/
def pow32PS : ℚ → ℚ :=
  fun q => if q = 9/25 then 27/125 else if q = 144 then 1728 else 0

/-- The message of a Python `IndexError`. -/
def idxErrMsg : String := "index out of range"

/-- numpy 1-d integer indexing: `0 ≤ k < len` reads directly, a negative
`k ≥ -len` silently wraps to `len + k` (Python negative indexing), and
anything else raises `IndexError`. -/
def npIndex (l : List ℚ) (k : ℤ) : Except String ℚ :=
  if 0 ≤ k then
    if k < l.length then Except.ok (l.getD k.toNat 0) else Except.error idxErrMsg
  else
    if -(l.length : ℤ) ≤ k then Except.ok (l.getD (k + l.length).toNat 0)
    else Except.error idxErrMsg

/-- Line 179: `sort(bootstraped_pcas[:, i, j])[index]` — the sorted copy
of the cell's bootstrap values, indexed. -/
def sorted_cell_value (boot : List (List (List ℚ))) (i j : ℕ) (k : ℤ) :
    Except String ℚ :=
  npIndex (sortAsc (cellSeries boot i j)) k

/-- The inner loop of `confidence_intervals_from_indexes` over one row of
indices (`j` is the running column position). -/
def ci_cells (boot : List (List (List ℚ))) (i j : ℕ) :
    List ℤ → Except String (List ℚ)
  | [] => Except.ok []
  | k :: ks =>
      match sorted_cell_value boot i j k with
      | Except.error e => Except.error e
      | Except.ok v =>
          match ci_cells boot i (j + 1) ks with
          | Except.error e => Except.error e
          | Except.ok vs => Except.ok (v :: vs)

/-- The outer loop of `confidence_intervals_from_indexes` (`i` is the
running row position). -/
def ci_rows (boot : List (List (List ℚ))) (i : ℕ) :
    List (List ℤ) → Except String (List (List ℚ))
  | [] => Except.ok []
  | row :: rows =>
      match ci_cells boot i 0 row with
      | Except.error e => Except.error e
      | Except.ok r =>
          match ci_rows boot (i + 1) rows with
          | Except.error e => Except.error e
          | Except.ok rs => Except.ok (r :: rs)

/-- `confidence.confidence_intervals_from_indexes` (lines 158-182): a
Python `IndexError` escaping the loop is `Except.error`. -/
def confidence_intervals_from_indexes (idxs : List (List ℤ))
    (boot : List (List (List ℚ))) : Except String (List (List ℚ)) :=
  ci_rows boot 0 idxs

/-- `confidence.produce_confidence_intervals` (lines 184-263). -/
def produce_confidence_intervals (O : NormalOracle) (p32 : ℚ → ℚ)
    (boot jack : List (List (List ℚ))) (emp : List (List ℚ)) (alpha : ℚ) :
    Except String (List (List ℚ) × List (List ℚ)) :=
  match confidence_intervals_from_indexes
      (index_matrix O p32 boot jack emp (O.ppf (alpha / 2))) boot with
  | Except.error e => Except.error e
  | Except.ok lower =>
      match confidence_intervals_from_indexes
          (index_matrix O p32 boot jack emp (O.ppf (1 - alpha / 2))) boot with
      | Except.error e => Except.error e
      | Except.ok upper => Except.ok (lower, upper)

/-- C1 (amended): for every `power(·, 3/2)` oracle, jackknife ensemble
and cell, the acceleration the code computes is the *negation* of the
spec's formula: the code cubes `θᵢ − θ̄` where the standard estimator the
spec states cubes `θ̄ − θᵢ` (the squared sums in the denominator agree). -/
theorem acceleration_negates_spec_formula (p32 : ℚ → ℚ)
    (jack : List (List (List ℚ))) (i j : ℕ) :
    distribution_skewness p32 jack i j = - acceleration_spec_formula p32 jack i j := by
  rw [distribution_skewness, acceleration_spec_formula]
  have hnum : ∀ (l : List ℚ) (m : ℚ),
      (l.map (fun t => (t - m) ^ 3)).sum = -(l.map (fun t => (m - t) ^ 3)).sum := by
    intro l m
    induction l with
    | nil => simp
    | cons x xs ih =>
        simp only [List.map_cons, List.sum_cons, ih]
        ring
  have hden : (fun t => (t - jack_mean jack i j) ^ 2)
      = (fun t => (jack_mean jack i j - t) ^ 2) := by
    funext t
    ring
  rw [hnum, hden, neg_div]

/-- C1 counterexample: for the jackknife ensemble of 1×1 matrices
`(4/5, 1/5, 1/5, 0)` (cell mean `3/10`, squared-deviation sum `9/25`,
whose true 3/2-power is `27/125`, certified below), the code's
acceleration is `2/27` while the spec's formula gives `-2/27`. -/
theorem acceleration_sign_counterexample :
    (pow32PS (9/25) = 27/125 ∧ ((27 : ℚ)/125) * (27/125) = (9/25) ^ 3) ∧
      distribution_skewness pow32PS [[[4/5]], [[1/5]], [[1/5]], [[0]]] 0 0 = 2/27 ∧
      acceleration_spec_formula pow32PS [[[4/5]], [[1/5]], [[1/5]], [[0]]] 0 0 = -2/27 ∧
      ((2 : ℚ)/27) ≠ -2/27 := by
  norm_num [distribution_skewness, acceleration_spec_formula, cellSeries, cellD,
    jack_mean, pow32PS]

theorem sortAsc_length (l : List ℚ) : (sortAsc l).length = l.length := by
  simp [sortAsc, List.length_insertionSort]

theorem cellSeries_length (boot : List (List (List ℚ))) (i j : ℕ) :
    (cellSeries boot i j).length = boot.length := by
  simp [cellSeries]

theorem except_isOk_ok {a : Type} (x : a) :
    (Except.ok x : Except String a).isOk = true := rfl

theorem except_isOk_error {a : Type} (e : String) :
    (Except.error e : Except String a).isOk = false := rfl

theorem npIndex_ok_iff (l : List ℚ) (k : ℤ) :
    (npIndex l k).isOk = true ↔ (-(l.length : ℤ) ≤ k ∧ k < l.length) := by
  rw [npIndex]
  split_ifs with h1 h2 h3
  · rw [except_isOk_ok]
    exact iff_of_true rfl (by omega)
  · rw [except_isOk_error]
    exact iff_of_false (by simp) (by omega)
  · rw [except_isOk_ok]
    exact iff_of_true rfl (by omega)
  · rw [except_isOk_error]
    exact iff_of_false (by simp) (by omega)

theorem sorted_cell_ok_iff (boot : List (List (List ℚ))) (i j : ℕ) (k : ℤ) :
    (sorted_cell_value boot i j k).isOk = true ↔
      (-(boot.length : ℤ) ≤ k ∧ k < boot.length) := by
  rw [sorted_cell_value, npIndex_ok_iff, sortAsc_length, cellSeries_length]

theorem ci_cells_ok_iff (boot : List (List (List ℚ))) (i : ℕ) :
    ∀ (ks : List ℤ) (j : ℕ),
      (ci_cells boot i j ks).isOk = true ↔
        ∀ k ∈ ks, -(boot.length : ℤ) ≤ k ∧ k < boot.length := by
  intro ks
  induction ks with
  | nil =>
      intro j
      rw [ci_cells, except_isOk_ok]
      simp
  | cons k ks ih =>
      intro j
      rw [ci_cells]
      cases hsv : sorted_cell_value boot i j k with
      | error e =>
          have hbad : ¬(-(boot.length : ℤ) ≤ k ∧ k < boot.length) := by
            have h := sorted_cell_ok_iff boot i j k
            rw [hsv, except_isOk_error] at h
            intro hcon
            exact Bool.false_ne_true (h.2 hcon)
          rw [except_isOk_error]
          refine iff_of_false (by simp) ?_
          intro hall
          exact hbad (hall k (List.mem_cons_self k ks))
      | ok v =>
          have hgood : -(boot.length : ℤ) ≤ k ∧ k < boot.length := by
            have h := sorted_cell_ok_iff boot i j k
            rw [hsv, except_isOk_ok] at h
            exact h.1 rfl
          cases hrec : ci_cells boot i (j + 1) ks with
          | error e =>
              have htail : ¬(∀ k2 ∈ ks, -(boot.length : ℤ) ≤ k2 ∧ k2 < boot.length) := by
                intro hcon
                have h := (ih (j + 1)).2 hcon
                rw [hrec, except_isOk_error] at h
                exact Bool.false_ne_true h
              rw [except_isOk_error]
              refine iff_of_false (by simp) ?_
              intro hall
              refine htail ?_
              intro k2 hk2
              exact hall k2 (List.mem_cons_of_mem k hk2)
          | ok vs =>
              have htail : ∀ k2 ∈ ks, -(boot.length : ℤ) ≤ k2 ∧ k2 < boot.length := by
                have h := (ih (j + 1)).1
                rw [hrec, except_isOk_ok] at h
                exact h rfl
              rw [except_isOk_ok]
              refine iff_of_true rfl ?_
              intro k2 hk2
              rcases List.mem_cons.1 hk2 with h0 | h1
              · rw [h0]; exact hgood
              · exact htail k2 h1

theorem ci_rows_ok_iff (boot : List (List (List ℚ))) :
    ∀ (rows : List (List ℤ)) (i : ℕ),
      (ci_rows boot i rows).isOk = true ↔
        ∀ row ∈ rows, ∀ k ∈ row, -(boot.length : ℤ) ≤ k ∧ k < boot.length := by
  intro rows
  induction rows with
  | nil =>
      intro i
      rw [ci_rows, except_isOk_ok]
      simp
  | cons row rows ih =>
      intro i
      rw [ci_rows]
      cases hrow : ci_cells boot i 0 row with
      | error e =>
          have hbad : ¬(∀ k ∈ row, -(boot.length : ℤ) ≤ k ∧ k < boot.length) := by
            intro hcon
            have h := (ci_cells_ok_iff boot i row 0).2 hcon
            rw [hrow, except_isOk_error] at h
            exact Bool.false_ne_true h
          rw [except_isOk_error]
          refine iff_of_false (by simp) ?_
          intro hall
          exact hbad (hall row (List.mem_cons_self row rows))
      | ok r =>
          have hgood : ∀ k ∈ row, -(boot.length : ℤ) ≤ k ∧ k < boot.length := by
            have h := (ci_cells_ok_iff boot i row 0).1
            rw [hrow, except_isOk_ok] at h
            exact h rfl
          cases hrec : ci_rows boot (i + 1) rows with
          | error e =>
              have htail : ¬(∀ row2 ∈ rows, ∀ k ∈ row2,
                  -(boot.length : ℤ) ≤ k ∧ k < boot.length) := by
                intro hcon
                have h := (ih (i + 1)).2 hcon
                rw [hrec, except_isOk_error] at h
                exact Bool.false_ne_true h
              rw [except_isOk_error]
              refine iff_of_false (by simp) ?_
              intro hall
              refine htail ?_
              intro row2 hrow2
              exact hall row2 (List.mem_cons_of_mem row hrow2)
          | ok rs =>
              have htail : ∀ row2 ∈ rows, ∀ k ∈ row2,
                  -(boot.length : ℤ) ≤ k ∧ k < boot.length := by
                have h := (ih (i + 1)).1
                rw [hrec, except_isOk_ok] at h
                exact h rfl
              rw [except_isOk_ok]
              refine iff_of_true rfl ?_
              intro row2 hrow2
              rcases List.mem_cons.1 hrow2 with h0 | h1
              · rw [h0]; exact hgood
              · exact htail row2 h1

/-- C6 (amended): `confidence_intervals_from_indexes` performs no
clamping and surfaces no warning.  It succeeds exactly when every rank
index lies in `[-B, B)`; an index `≥ B` makes the call raise an
unhandled `IndexError` (which `produce_confidence_intervals` does not
catch), and a negative in-range index silently *wraps around* to the
other end of the sorted values (`sorted[B + k]`, Python negative
indexing) instead of being clamped to the nearest valid index. -/
theorem quantile_index_unguarded (idxs : List (List ℤ))
    (boot : List (List (List ℚ))) :
    ((confidence_intervals_from_indexes idxs boot).isOk = true ↔
      ∀ row ∈ idxs, ∀ k ∈ row, -(boot.length : ℤ) ≤ k ∧ k < boot.length) ∧
      (∀ (i j : ℕ) (k : ℤ), -(boot.length : ℤ) ≤ k → k < 0 →
        sorted_cell_value boot i j k =
          Except.ok ((sortAsc (cellSeries boot i j)).getD (k + boot.length).toNat 0)) := by
  constructor
  · exact ci_rows_ok_iff boot idxs 0
  · intro i j k h1 h2
    rw [sorted_cell_value, npIndex]
    rw [if_neg (by omega)]
    rw [if_pos (by rw [sortAsc_length, cellSeries_length]; exact h1)]
    rw [sortAsc_length, cellSeries_length]

/-- C6 witness: the amended behaviour instantiated on a concrete
two-sample ensemble, with the negative-index hypothesis discharged at
`k = -1`. -/
theorem quantile_index_unguarded_witness :
    (confidence_intervals_from_indexes [[0]] [[[1]], [[2]]]).isOk = true ∧
      sorted_cell_value [[[1]], [[2]]] 0 0 (-1) =
        Except.ok ((sortAsc (cellSeries [[[1]], [[2]]] 0 0)).getD
          ((-1 + ((2 : ℕ) : ℤ)).toNat) 0) := by
  have h := quantile_index_unguarded [[0]] [[[1]], [[2]]]
  constructor
  · rw [h.1]
    intro row hrow k hk
    simp at hrow
    subst hrow
    simp at hk
    subst hk
    norm_num
  · exact h.2 0 0 (-1) (by norm_num) (by norm_num)

/-- C6 counterexample: on the two-sample ensemble with cell values
`(1, 2)`, the rank index `-1` is served by silent wraparound to the
*top* of the sorted values (`2`, where clamping to the nearest valid
index `0` would give `1`), and the rank index `2 = B` — produced inside
`produce_confidence_intervals` whenever the adjusted quantile evaluates
to `1`, as scipy's `cdf` does at large arguments — raises an unhandled
`IndexError` instead of returning a clamped bound with a warning. -/
theorem quantile_divergence_not_clamped :
    confidence_intervals_from_indexes [[-1]] [[[1]], [[2]]] = Except.ok [[2]] ∧
      (Except.ok [[2]] : Except String (List (List ℚ))) ≠ Except.ok [[1]] ∧
      confidence_intervals_from_indexes [[2]] [[[1]], [[2]]] = Except.error idxErrMsg ∧
      produce_confidence_intervals ⟨fun _ => 1, fun _ => 0, fun _ => 0⟩ pow32PS
        [[[1]], [[2]]] [[[0]], [[0]]] [[5]] (1/2) = Except.error idxErrMsg := by
  norm_num [produce_confidence_intervals, confidence_intervals_from_indexes, ci_rows,
    ci_cells, sorted_cell_value, npIndex, sortAsc, List.insertionSort, List.orderedInsert,
    cellSeries, cellD, index_matrix, location_index, adjusted_location, bias_corrector,
    proportion_below, distribution_skewness, jack_mean, pow32PS, idxErrMsg,
    List.range_succ, List.filter]

theorem ci_cells_ok_cell (boot : List (List (List ℚ))) (i : ℕ) :
    ∀ (ks : List ℤ) (j : ℕ) (vs : List ℚ),
      ci_cells boot i j ks = Except.ok vs →
      vs.length = ks.length ∧
        ∀ p, p < ks.length →
          sorted_cell_value boot i (j + p) (ks.getD p 0) = Except.ok (vs.getD p 0) := by
  intro ks
  induction ks with
  | nil =>
      intro j vs h
      rw [ci_cells] at h
      injection h with h
      subst h
      exact ⟨rfl, by intro p hp; simp at hp⟩
  | cons k ks ih =>
      intro j vs h
      rw [ci_cells] at h
      cases hsv : sorted_cell_value boot i j k with
      | error e => rw [hsv] at h; exact absurd h (by simp)
      | ok v =>
          rw [hsv] at h
          cases hrec : ci_cells boot i (j + 1) ks with
          | error e => rw [hrec] at h; exact absurd h (by simp)
          | ok vs2 =>
              rw [hrec] at h
              injection h with h
              subst h
              obtain ⟨hlen, hcells⟩ := ih (j + 1) vs2 hrec
              refine ⟨by simp [hlen], ?_⟩
              intro p hp
              cases p with
              | zero => simpa using hsv
              | succ p2 =>
                  have hp2 : p2 < ks.length := by simpa using hp
                  have := hcells p2 hp2
                  have hjp : j + (p2 + 1) = (j + 1) + p2 := by omega
                  rw [hjp]
                  simpa using this

theorem ci_rows_ok_cell (boot : List (List (List ℚ))) :
    ∀ (rows : List (List ℤ)) (i : ℕ) (res : List (List ℚ)),
      ci_rows boot i rows = Except.ok res →
      res.length = rows.length ∧
        ∀ q, q < rows.length →
          ci_cells boot (i + q) 0 (rows.getD q []) = Except.ok (res.getD q []) := by
  intro rows
  induction rows with
  | nil =>
      intro i res h
      rw [ci_rows] at h
      injection h with h
      subst h
      exact ⟨rfl, by intro q hq; simp at hq⟩
  | cons row rows ih =>
      intro i res h
      rw [ci_rows] at h
      cases hrow : ci_cells boot i 0 row with
      | error e => rw [hrow] at h; exact absurd h (by simp)
      | ok r =>
          rw [hrow] at h
          cases hrec : ci_rows boot (i + 1) rows with
          | error e => rw [hrec] at h; exact absurd h (by simp)
          | ok rs =>
              rw [hrec] at h
              injection h with h
              subst h
              obtain ⟨hlen, hrows2⟩ := ih (i + 1) rs hrec
              refine ⟨by simp [hlen], ?_⟩
              intro q hq
              cases q with
              | zero => simpa using hrow
              | succ q2 =>
                  have hq2 : q2 < rows.length := by simpa using hq
                  have := hrows2 q2 hq2
                  have hiq : i + (q2 + 1) = (i + 1) + q2 := by omega
                  rw [hiq]
                  simpa using this

/-- C7 (amended): whenever `produce_confidence_intervals` returns its two
bound matrices *and* the BCa denominator `1 - a·(z0 + zα)` stays positive
at both tails of every cell (no pole crossing), the lower bound is at
most the upper bound at every cell.  The oracle hypotheses — monotone cdf
with non-negative values and `ppf(α/2) ≤ ppf(1-α/2)` — hold of the true
standard normal.  Without the no-pole hypothesis the conclusion fails:
see the counterexample theorem for this claim. -/
theorem bca_bounds_ordered_when_no_pole
    (O : NormalOracle) (p32 : ℚ → ℚ) (boot jack : List (List (List ℚ)))
    (emp : List (List ℚ)) (alpha : ℚ) (lower upper : List (List ℚ))
    (hcdf_mono : Monotone O.cdf)
    (hcdf_nonneg : ∀ x, 0 ≤ O.cdf x)
    (hppf : O.ppf (alpha / 2) ≤ O.ppf (1 - alpha / 2))
    (hden : ∀ i j, i < (boot.headD []).length → j < ((boot.headD []).headD []).length →
      0 < 1 - distribution_skewness p32 jack i j *
        (bias_corrector O boot emp i j + O.ppf (alpha / 2)) ∧
      0 < 1 - distribution_skewness p32 jack i j *
        (bias_corrector O boot emp i j + O.ppf (1 - alpha / 2)))
    (hok : produce_confidence_intervals O p32 boot jack emp alpha
      = Except.ok (lower, upper)) :
    ∀ i j, i < (boot.headD []).length → j < ((boot.headD []).headD []).length →
      cellD lower i j ≤ cellD upper i j := by
  intro i j hi hj
  unfold produce_confidence_intervals at hok
  cases hlo : confidence_intervals_from_indexes
      (index_matrix O p32 boot jack emp (O.ppf (alpha / 2))) boot with
  | error e => rw [hlo] at hok; exact absurd hok (by simp)
  | ok lowres =>
      cases hhi : confidence_intervals_from_indexes
          (index_matrix O p32 boot jack emp (O.ppf (1 - alpha / 2))) boot with
      | error e => rw [hlo, hhi] at hok; exact absurd hok (by simp)
      | ok upres =>
          rw [hlo, hhi] at hok
          injection hok with hok
          have hlower : lower = lowres := (congrArg Prod.fst hok).symm
          have hupper : upper = upres := (congrArg Prod.snd hok).symm
          subst hlower
          subst hupper
          have hcell : ∀ (z : ℚ) (res : List (List ℚ)),
              confidence_intervals_from_indexes
                (index_matrix O p32 boot jack emp z) boot = Except.ok res →
              sorted_cell_value boot i j (location_index O p32 boot jack emp z i j)
                = Except.ok (cellD res i j) := by
            intro z res h
            rw [confidence_intervals_from_indexes] at h
            obtain ⟨hlen, hrows⟩ :=
              ci_rows_ok_cell boot (index_matrix O p32 boot jack emp z) 0 res h
            have hmrows : (index_matrix O p32 boot jack emp z).length
                = (boot.headD []).length := by
              simp [index_matrix]
            have hq := hrows i (by rw [hmrows]; exact hi)
            have hrowi : (index_matrix O p32 boot jack emp z).getD i [] =
                (List.range ((boot.headD []).headD []).length).map
                  (fun j2 => location_index O p32 boot jack emp z i j2) := by
              rw [index_matrix]
              exact getD_range_map _ _ i [] hi
            rw [hrowi] at hq
            simp only [Nat.zero_add] at hq
            obtain ⟨hlen2, hcells⟩ := ci_cells_ok_cell boot i _ 0 _ hq
            have hc := hcells j (by simpa using hj)
            rw [getD_range_map _ _ j 0 hj] at hc
            simp only [Nat.zero_add] at hc
            exact hc
          have hLo := hcell (O.ppf (alpha / 2)) lower hlo
          have hHi := hcell (O.ppf (1 - alpha / 2)) upper hhi
          have hvalidLo := (sorted_cell_ok_iff boot i j
            (location_index O p32 boot jack emp (O.ppf (alpha / 2)) i j)).1
            (by rw [hLo]; rfl)
          have hvalidHi := (sorted_cell_ok_iff boot i j
            (location_index O p32 boot jack emp (O.ppf (1 - alpha / 2)) i j)).1
            (by rw [hHi]; rfl)
          have hB : (0 : ℚ) ≤ (boot.length : ℚ) := by positivity
          have hlocLo_nonneg :
              0 ≤ adjusted_location O p32 boot jack emp (O.ppf (alpha / 2)) i j := by
            rw [adjusted_location]
            exact hcdf_nonneg _
          have hfloorLo :
              0 ≤ location_index O p32 boot jack emp (O.ppf (alpha / 2)) i j := by
            rw [location_index]
            refine Int.le_floor.2 ?_
            push_cast
            exact mul_nonneg hlocLo_nonneg hB
          obtain ⟨hdLo, hdHi⟩ := hden i j hi hj
          have hfrac :
              (bias_corrector O boot emp i j + O.ppf (alpha / 2)) /
                (1 - distribution_skewness p32 jack i j *
                  (bias_corrector O boot emp i j + O.ppf (alpha / 2))) ≤
              (bias_corrector O boot emp i j + O.ppf (1 - alpha / 2)) /
                (1 - distribution_skewness p32 jack i j *
                  (bias_corrector O boot emp i j + O.ppf (1 - alpha / 2))) := by
            rw [div_le_div_iff₀ hdLo hdHi]
            nlinarith [hppf]
          have hlocLe :
              adjusted_location O p32 boot jack emp (O.ppf (alpha / 2)) i j ≤
                adjusted_location O p32 boot jack emp (O.ppf (1 - alpha / 2)) i j := by
            rw [adjusted_location, adjusted_location]
            exact hcdf_mono (add_le_add_left hfrac _)
          have hidxLe :
              location_index O p32 boot jack emp (O.ppf (alpha / 2)) i j ≤
                location_index O p32 boot jack emp (O.ppf (1 - alpha / 2)) i j := by
            rw [location_index, location_index]
            exact Int.floor_le_floor (mul_le_mul_of_nonneg_right hlocLe hB)
          have hfloorHi :
              0 ≤ location_index O p32 boot jack emp (O.ppf (1 - alpha / 2)) i j :=
            le_trans hfloorLo hidxLe
          have hvalLo : cellD lower i j = (sortAsc (cellSeries boot i j)).getD
              (location_index O p32 boot jack emp (O.ppf (alpha / 2)) i j).toNat 0 := by
            have h := hLo
            rw [sorted_cell_value, npIndex, if_pos hfloorLo,
              if_pos (by rw [sortAsc_length, cellSeries_length]; exact hvalidLo.2)] at h
            injection h with h
            exact h.symm
          have hvalHi : cellD upper i j = (sortAsc (cellSeries boot i j)).getD
              (location_index O p32 boot jack emp (O.ppf (1 - alpha / 2)) i j).toNat 0 := by
            have h := hHi
            rw [sorted_cell_value, npIndex, if_pos hfloorHi,
              if_pos (by rw [sortAsc_length, cellSeries_length]; exact hvalidHi.2)] at h
            injection h with h
            exact h.symm
          rw [hvalLo, hvalHi]
          have hsorted : List.Sorted (· ≤ ·) (sortAsc (cellSeries boot i j)) :=
            List.sorted_insertionSort _ _
          have hlenS : (sortAsc (cellSeries boot i j)).length = boot.length := by
            rw [sortAsc_length, cellSeries_length]
          have hpLo : (location_index O p32 boot jack emp (O.ppf (alpha / 2)) i j).toNat
              < (sortAsc (cellSeries boot i j)).length := by
            rw [hlenS]
            omega
          have hpHi : (location_index O p32 boot jack emp (O.ppf (1 - alpha / 2)) i j).toNat
              < (sortAsc (cellSeries boot i j)).length := by
            rw [hlenS]
            omega
          rw [List.getD_eq_getElem _ _ hpLo, List.getD_eq_getElem _ _ hpHi]
          have hrel := List.Sorted.rel_get_of_le hsorted
            (a := ⟨_, hpLo⟩) (b := ⟨_, hpHi⟩) (by exact Fin.mk_le_mk.2 (by omega))
          simpa using hrel

/-- A strictly increasing rational sigmoid standing in for the
standard-normal cdf in concrete instances: `1/2 + x / (2(1 + |x|))`.
It shares every property the claims rely on — monotone, with values in
`[0, 1]` and value `1/2` at `0`. -/
def sigCdf : ℚ → ℚ :=
  fun x => 1/2 + x / (2 * (1 + |x|))

/-- The exact inverse of `sigCdf` on `(0, 1)`, standing in for the
standard-normal quantile function (`ppf`/`icdf`). -/
def sigPpf : ℚ → ℚ :=
  fun p => if p < 1/2 then (2*p - 1) / (2*p) else (2*p - 1) / (2 - 2*p)

/-- The sigmoid pair packaged as the scipy oracles. -/
def sigOracle : NormalOracle :=
  ⟨sigCdf, sigPpf, sigPpf⟩

theorem sigCdf_mono : Monotone sigCdf := by
  intro x y hxy
  simp only [sigCdf]
  have hx : (0 : ℚ) < 2 * (1 + |x|) := by positivity
  have hy : (0 : ℚ) < 2 * (1 + |y|) := by positivity
  have hdiv : x / (2 * (1 + |x|)) ≤ y / (2 * (1 + |y|)) := by
    rw [div_le_div_iff₀ hx hy]
    rcases abs_cases x with ⟨hax, hax0⟩ | ⟨hax, hax0⟩ <;>
      rcases abs_cases y with ⟨hay, hay0⟩ | ⟨hay, hay0⟩ <;>
        rw [hax, hay] <;> nlinarith [hxy]
  linarith [hdiv]

theorem sigCdf_nonneg (x : ℚ) : 0 ≤ sigCdf x := by
  simp only [sigCdf]
  have hx : (0 : ℚ) < 2 * (1 + |x|) := by positivity
  have h1 : -(1/2 : ℚ) ≤ x / (2 * (1 + |x|)) := by
    rw [le_div_iff₀ hx]
    have := neg_abs_le x
    linarith
  linarith

theorem sigCdf_le_one (x : ℚ) : sigCdf x ≤ 1 := by
  simp only [sigCdf]
  have hx : (0 : ℚ) < 2 * (1 + |x|) := by positivity
  have h1 : x / (2 * (1 + |x|)) ≤ 1/2 := by
    rw [div_le_iff₀ hx]
    have := le_abs_self x
    linarith
  linarith

/-- The 11-sample bootstrap ensemble of 1×1 matrices `1, …, 11` used in
the BCa counterexample. -/
def boot11 : List (List (List ℚ)) :=
  [[[1]], [[2]], [[3]], [[4]], [[5]], [[6]], [[7]], [[8]], [[9]], [[10]], [[11]]]

/-- The 7-sample jackknife ensemble of 1×1 matrices with cell values
`(3, 3, 4, 4, 4, 5, -9)`: mean `2`, deviations `(1, 1, 2, 2, 2, 3, -11)`,
squared-deviation sum `144`, cubed-deviation sum `-1278`, so the code's
acceleration is `-71/576` — negative enough to push the lower tail's BCa
denominator past its pole at `α = 1/10`. -/
def jack7 : List (List (List ℚ)) :=
  [[[3]], [[3]], [[4]], [[4]], [[4]], [[5]], [[-9]]]

set_option maxHeartbeats 8000000 in
/-- C7 counterexample: with a monotone cdf valued in `[0, 1]` (the
sigmoid family, sharing every property of the true normal the claim can
use) and its exact quantile inverse, the 11-sample bootstrap ensemble
`1..11`, the jackknife ensemble `jack7` (acceleration `-71/576`), the
empirical value `11/2` and significance level `α = 1/10 ∈ (0, 1)`,
`produce_confidence_intervals` *returns* bounds with
`lower = 11 > 10 = upper`: the lower tail's BCa denominator
`1 - a(z0 + z_{α/2})` is negative (the map crosses its pole), sending the
lower adjusted quantile above the upper one. -/
theorem bca_lower_exceeds_upper_counterexample :
    Monotone sigCdf ∧ (∀ x, 0 ≤ sigCdf x ∧ sigCdf x ≤ 1) ∧
      sigPpf ((1/10 : ℚ) / 2) ≤ sigPpf (1 - (1/10 : ℚ) / 2) ∧
      (0 < (1/10 : ℚ) ∧ (1/10 : ℚ) < 1) ∧
      (pow32PS 144 = 1728 ∧ (1728 : ℚ) * 1728 = 144 ^ 3) ∧
      produce_confidence_intervals sigOracle pow32PS boot11 jack7 [[11/2]] (1/10)
        = Except.ok ([[11]], [[10]]) ∧
      ¬ (cellD [[11]] 0 0 ≤ cellD [[10]] 0 0) := by
  refine ⟨sigCdf_mono, fun x => ⟨sigCdf_nonneg x, sigCdf_le_one x⟩,
    by norm_num [sigPpf], by norm_num, ⟨by norm_num [pow32PS], by norm_num⟩, ?_,
    by norm_num [cellD]⟩
  norm_num [produce_confidence_intervals, confidence_intervals_from_indexes, ci_rows,
    ci_cells, sorted_cell_value, npIndex, sortAsc, List.insertionSort, List.orderedInsert,
    cellSeries, cellD, index_matrix, location_index, adjusted_location, bias_corrector,
    proportion_below, distribution_skewness, jack_mean, pow32PS, sigOracle, sigCdf, sigPpf,
    boot11, jack7, idxErrMsg, List.range_succ, List.filter, abs_eq_max_neg, max_def]
  decide

set_option maxHeartbeats 2000000 in
/-- C7 witness: the no-pole ordering theorem instantiated on a concrete
two-sample ensemble (acceleration `0`, both denominators `1 > 0`), where
the returned bounds are `1 ≤ 2`. -/
theorem bca_bounds_ordered_witness :
    cellD [[1]] 0 0 ≤ cellD [[2]] 0 0 := by
  have hok : produce_confidence_intervals sigOracle pow32PS [[[1]], [[2]]]
      [[[0]], [[0]]] [[3/2]] (1/2) = Except.ok ([[1]], [[2]]) := by
    norm_num [produce_confidence_intervals, confidence_intervals_from_indexes, ci_rows,
      ci_cells, sorted_cell_value, npIndex, sortAsc, List.insertionSort,
      List.orderedInsert, cellSeries, cellD, index_matrix, location_index,
      adjusted_location, bias_corrector, proportion_below, distribution_skewness,
      jack_mean, pow32PS, sigOracle, sigCdf, sigPpf, idxErrMsg, List.range_succ,
      List.filter, abs_eq_max_neg, max_def]
  have hden : ∀ i j, i < (([[[1]], [[2]]] : List (List (List ℚ))).headD []).length →
      j < ((([[[1]], [[2]]] : List (List (List ℚ))).headD []).headD []).length →
      0 < 1 - distribution_skewness pow32PS [[[0]], [[0]]] i j *
        (bias_corrector sigOracle [[[1]], [[2]]] [[3/2]] i j + sigOracle.ppf ((1/2) / 2)) ∧
      0 < 1 - distribution_skewness pow32PS [[[0]], [[0]]] i j *
        (bias_corrector sigOracle [[[1]], [[2]]] [[3/2]] i j +
          sigOracle.ppf (1 - (1/2) / 2)) := by
    intro i j hi hj
    simp at hi hj
    subst hi
    subst hj
    norm_num [distribution_skewness, bias_corrector, proportion_below, cellSeries, cellD,
      jack_mean, pow32PS, sigOracle, sigPpf, List.filter]
  exact bca_bounds_ordered_when_no_pole sigOracle pow32PS [[[1]], [[2]]] [[[0]], [[0]]]
    [[3/2]] (1/2) [[1]] [[2]] sigCdf_mono (fun x => sigCdf_nonneg x)
    (by norm_num [sigOracle, sigPpf]) hden hok 0 0 (by norm_num) (by norm_num)

/-! ## C10: the array arguments survive unchanged

The only operation in `confidence_intervals_from_indexes` and
`produce_confidence_intervals` that could mutate an argument is the sort
on line 179 — and the source calls the numpy *module* function
`sort(...)`, which returns a fresh sorted copy, not the in-place method
`ndarray.sort()`.  To state the frame property, the bootstrap array is
threaded through the loops as an explicit store: `sortedCopy` returns
the sorted copy *and* the store it leaves behind (an in-place sort would
return an altered store here).  The jackknife and empirical arrays are
only ever read by pure arithmetic (means, counts, quantiles), so they
are returned alongside. -/

/-- `numpy.sort(boot[:, i, j])`: a fresh ascending copy; the store comes
back as it was. -/
def sortedCopy (store : List (List (List ℚ))) (i j : ℕ) :
    List ℚ × List (List (List ℚ)) :=
  (sortAsc (cellSeries store i j), store)

/-- `ci_cells` with the bootstrap array threaded as a store. -/
def ci_cells_st (store : List (List (List ℚ))) (i j : ℕ) :
    List ℤ → Except String (List ℚ) × List (List (List ℚ))
  | [] => (Except.ok [], store)
  | k :: ks =>
      let p := sortedCopy store i j
      match npIndex p.1 k with
      | Except.error e => (Except.error e, p.2)
      | Except.ok v =>
          let q := ci_cells_st p.2 i (j + 1) ks
          match q.1 with
          | Except.error e => (Except.error e, q.2)
          | Except.ok vs => (Except.ok (v :: vs), q.2)

/-- `ci_rows` with the bootstrap array threaded as a store. -/
def ci_rows_st (store : List (List (List ℚ))) (i : ℕ) :
    List (List ℤ) → Except String (List (List ℚ)) × List (List (List ℚ))
  | [] => (Except.ok [], store)
  | row :: rows =>
      let p := ci_cells_st store i 0 row
      match p.1 with
      | Except.error e => (Except.error e, p.2)
      | Except.ok r =>
          let q := ci_rows_st p.2 (i + 1) rows
          match q.1 with
          | Except.error e => (Except.error e, q.2)
          | Except.ok rs => (Except.ok (r :: rs), q.2)

/-- `confidence_intervals_from_indexes`, store-threaded. -/
def confidence_intervals_from_indexes_st (idxs : List (List ℤ))
    (store : List (List (List ℚ))) :
    Except String (List (List ℚ)) × List (List (List ℚ)) :=
  ci_rows_st store 0 idxs

/-- `produce_confidence_intervals`, with the bootstrap store sequenced
through both interval extractions and the read-only jackknife and
empirical arrays carried along. -/
def produce_confidence_intervals_st (O : NormalOracle) (p32 : ℚ → ℚ)
    (boot jack : List (List (List ℚ))) (emp : List (List ℚ)) (alpha : ℚ) :
    Except String (List (List ℚ) × List (List ℚ)) ×
      (List (List (List ℚ)) × List (List (List ℚ)) × List (List ℚ)) :=
  let r1 := confidence_intervals_from_indexes_st
    (index_matrix O p32 boot jack emp (O.ppf (alpha / 2))) boot
  match r1.1 with
  | Except.error e => (Except.error e, (r1.2, jack, emp))
  | Except.ok lower =>
      let r2 := confidence_intervals_from_indexes_st
        (index_matrix O p32 r1.2 jack emp (O.ppf (1 - alpha / 2))) r1.2
      match r2.1 with
      | Except.error e => (Except.error e, (r2.2, jack, emp))
      | Except.ok upper => (Except.ok (lower, upper), (r2.2, jack, emp))

theorem ci_cells_st_spec (boot : List (List (List ℚ))) (i : ℕ) :
    ∀ (ks : List ℤ) (j : ℕ),
      ci_cells_st boot i j ks = (ci_cells boot i j ks, boot) := by
  intro ks
  induction ks with
  | nil =>
      intro j
      rfl
  | cons k ks ih =>
      intro j
      rw [ci_cells_st, ci_cells, sorted_cell_value]
      show (match npIndex (sortAsc (cellSeries boot i j)) k with
        | Except.error e => (Except.error e, boot)
        | Except.ok v =>
            let q := ci_cells_st boot i (j + 1) ks
            match q.1 with
            | Except.error e => (Except.error e, q.2)
            | Except.ok vs => (Except.ok (v :: vs), q.2)) = _
      cases hnp : npIndex (sortAsc (cellSeries boot i j)) k with
      | error e => rfl
      | ok v =>
          show (let q := ci_cells_st boot i (j + 1) ks
            match q.1 with
            | Except.error e => (Except.error e, q.2)
            | Except.ok vs => (Except.ok (v :: vs), q.2)) = _
          rw [ih (j + 1)]
          cases ci_cells boot i (j + 1) ks with
          | error e => rfl
          | ok vs => rfl

theorem ci_rows_st_spec (boot : List (List (List ℚ))) :
    ∀ (rows : List (List ℤ)) (i : ℕ),
      ci_rows_st boot i rows = (ci_rows boot i rows, boot) := by
  intro rows
  induction rows with
  | nil =>
      intro i
      rfl
  | cons row rows ih =>
      intro i
      rw [ci_rows_st, ci_rows, ci_cells_st_spec boot i row 0]
      show (match ci_cells boot i 0 row with
        | Except.error e => (Except.error e, boot)
        | Except.ok r =>
            let q := ci_rows_st boot (i + 1) rows
            match q.1 with
            | Except.error e => (Except.error e, q.2)
            | Except.ok rs => (Except.ok (r :: rs), q.2)) = _
      cases ci_cells boot i 0 row with
      | error e => rfl
      | ok r =>
          show (let q := ci_rows_st boot (i + 1) rows
            match q.1 with
            | Except.error e => (Except.error e, q.2)
            | Except.ok rs => (Except.ok (r :: rs), q.2)) = _
          rw [ih (i + 1)]
          cases ci_rows boot (i + 1) rows with
          | error e => rfl
          | ok rs => rfl

/-- C10: both interval functions leave every array argument unchanged
and compute exactly what the pure embedding computes: the store-threaded
run of `confidence_intervals_from_indexes` hands back the bootstrap
array it was given (the per-cell sort works on a fresh copy), and
`produce_confidence_intervals` returns the bootstrap, jackknife and
empirical arrays element-for-element as they came in. -/
theorem interval_functions_leave_arrays_unchanged (O : NormalOracle) (p32 : ℚ → ℚ)
    (boot jack : List (List (List ℚ))) (emp : List (List ℚ)) (alpha : ℚ)
    (idxs : List (List ℤ)) :
    confidence_intervals_from_indexes_st idxs boot
        = (confidence_intervals_from_indexes idxs boot, boot) ∧
      produce_confidence_intervals_st O p32 boot jack emp alpha
        = (produce_confidence_intervals O p32 boot jack emp alpha, (boot, jack, emp)) := by
  constructor
  · exact ci_rows_st_spec boot idxs 0
  · rw [produce_confidence_intervals_st, produce_confidence_intervals]
    rw [confidence_intervals_from_indexes_st, ci_rows_st_spec boot _ 0]
    rw [confidence_intervals_from_indexes]
    show (match ci_rows boot 0 (index_matrix O p32 boot jack emp (O.ppf (alpha / 2))) with
      | Except.error e => (Except.error e, (boot, jack, emp))
      | Except.ok lower =>
          let r2 := confidence_intervals_from_indexes_st (index_matrix O p32 boot jack emp (O.ppf (1 - alpha / 2))) boot
          match r2.1 with
          | Except.error e => (Except.error e, (r2.2, jack, emp))
          | Except.ok upper => (Except.ok (lower, upper), (r2.2, jack, emp))) = _
    cases ci_rows boot 0 (index_matrix O p32 boot jack emp (O.ppf (alpha / 2))) with
    | error e => rfl
    | ok lower =>
        show (let r2 := confidence_intervals_from_indexes_st (index_matrix O p32 boot jack emp (O.ppf (1 - alpha / 2))) boot
          match r2.1 with
          | Except.error e => (Except.error e, (r2.2, jack, emp))
          | Except.ok upper => (Except.ok (lower, upper), (r2.2, jack, emp))) = _
        rw [confidence_intervals_from_indexes_st, ci_rows_st_spec boot _ 0]
        rw [confidence_intervals_from_indexes]
        cases ci_rows boot 0 (index_matrix O p32 boot jack emp (O.ppf (1 - alpha / 2))) with
        | error e => rfl
        | ok upper => rfl

end IndicatorCalc
